import Mathlib

/-
Verification of the ministark arithmetization core against its specification.
The definitions below are shallow embeddings of the Rust source files
src/brainfuck/src/io_table.rs, src/src/matrix.rs and src/src/trace.rs.
Machine integers (usize) are modelled as Nat; a Rust function that can abort
on a failed assertion or a panicking slice operation is modelled as an
Option-returning function, with none standing for the abort.
-/

namespace MiniStark

/-- Modelled from the spec: the multivariate polynomial type of the `algebra`
crate is not under src/; per the spec the constraint generators return
multivariate polynomials over named column variables whose only observable
behaviour here is evaluation at a row assignment, so a polynomial is modelled
by its evaluation function on assignments of values to variable indices. -/
structure Multivariate (F : Type) where
  evaluate : (Nat → F) → F

/-- Modelled from the spec: variable number `i` of the polynomial ring. -/
def Multivariate.var {F : Type} (i : Nat) : Multivariate F :=
  ⟨fun point => point i⟩

/-- Modelled from the spec: `Multivariate::variables(n)` returns the list of
the first `n` variables, mirroring the indexing used by the constraint code. -/
def Multivariate.variables (F : Type) (n : Nat) : List (Multivariate F) :=
  (List.range n).map Multivariate.var

/-- Modelled from the spec: the zero polynomial, used only as the (never
reached) default of list indexing. -/
def Multivariate.zeroPoly {F : Type} [Zero F] : Multivariate F :=
  ⟨fun _ => 0⟩

instance {F : Type} [Add F] : Add (Multivariate F) :=
  ⟨fun p q => ⟨fun point => p.evaluate point + q.evaluate point⟩⟩

instance {F : Type} [Sub F] : Sub (Multivariate F) :=
  ⟨fun p q => ⟨fun point => p.evaluate point - q.evaluate point⟩⟩

instance {F : Type} [Mul F] : HMul (Multivariate F) F (Multivariate F) :=
  ⟨fun p c => ⟨fun point => p.evaluate point * c⟩⟩

instance {F : Type} [Sub F] : HSub (Multivariate F) F (Multivariate F) :=
  ⟨fun p c => ⟨fun point => p.evaluate point - c⟩⟩

/-- The IoTable of src/brainfuck/src/io_table.rs: BASE_WIDTH = 1, so a base
row `[F; BASE_WIDTH]` is modelled by its single entry. -/
structure IoTable (F : Type) where
  num_padded_rows : Nat
  matrix : List F

/-- Index of the base column (io_table.rs line 23). -/
def IoTable.VALUE : Nat := 0

/-- Index of the extension column (io_table.rs line 25). -/
def IoTable.EVALUATION : Nat := 1

/-- io_table.rs lines 27-33. -/
def IoTable.new (F : Type) : IoTable F :=
  { num_padded_rows := 0, matrix := [] }

/-- io_table.rs lines 35-37: `self.matrix.len() - self.num_padded_rows`
(usize subtraction; it never underflows on reachable tables). -/
def IoTable.len {F : Type} (t : IoTable F) : Nat :=
  t.matrix.length - t.num_padded_rows

/-- io_table.rs lines 39-41. -/
def IoTable.height {F : Type} (t : IoTable F) : Nat :=
  t.matrix.length

/-- io_table.rs lines 43-49: while the matrix is shorter than `n`, push a
zero row and bump `num_padded_rows`. -/
def IoTable.pad {F : Type} [Zero F] (t : IoTable F) (n : Nat) : IoTable F :=
  if h : t.matrix.length < n then
    IoTable.pad { num_padded_rows := t.num_padded_rows + 1, matrix := t.matrix ++ [0] } n
  else
    t
termination_by n - t.matrix.length
decreasing_by
  simp only [List.length_append, List.length_singleton]
  omega

/-- io_table.rs lines 83-86. -/
def IoTable.set_matrix {F : Type} (t : IoTable F) (matrix : List F) : IoTable F :=
  { num_padded_rows := 0, matrix := matrix }

/-- io_table.rs lines 64-71. The source binds `value_next` and
`evaluation_next` to `variables[Self::VALUE]` and `variables[Self::EVALUATION]`
(the current-row indices 0 and 1), not to the next-row indices 2 and 3; the
translation reproduces that indexing exactly. -/
def IoTable.extension_transition_constraints {F : Type} [CommRing F] (challenge : F) :
    List (Multivariate F) :=
  let vars := Multivariate.variables F 4
  let value := vars.getD IoTable.VALUE Multivariate.zeroPoly
  let evaluation := vars.getD IoTable.EVALUATION Multivariate.zeroPoly
  let value_next := vars.getD IoTable.VALUE Multivariate.zeroPoly
  let evaluation_next := vars.getD IoTable.EVALUATION Multivariate.zeroPoly
  let _ := value
  [evaluation * challenge + value_next - evaluation_next]

/-- io_table.rs lines 73-81: the claimed terminal is first multiplied by
`challenge ^ num_padded_rows`. -/
def IoTable.extension_terminal_constraints {F : Type} [CommRing F]
    (t : IoTable F) (challenge : F) (terminal : F) : List (Multivariate F) :=
  let vars := Multivariate.variables F 2
  let offset := challenge ^ t.num_padded_rows
  let actual_terminal := terminal * offset
  [vars.getD IoTable.EVALUATION Multivariate.zeroPoly - actual_terminal]

/-- io_table.rs lines 142-156: the output table draws the tenth challenge
(delta) and forwards it; each `.next().unwrap()` panics when the challenge
list is too short, modelled by the none branch. -/
def OutputTable.extension_transition_constraints {F : Type} [CommRing F]
    (challenges : List F) : Option (List (Multivariate F)) :=
  match challenges with
  | _a :: _b :: _c :: _d :: _e :: _f :: _alpha :: _beta :: _gamma :: delta :: _eta :: _ =>
    some (IoTable.extension_transition_constraints delta)
  | _ => none

/-- io_table.rs lines 244-258: the input table draws the ninth challenge
(gamma) and forwards it. -/
def InputTable.extension_transition_constraints {F : Type} [CommRing F]
    (challenges : List F) : Option (List (Multivariate F)) :=
  match challenges with
  | _a :: _b :: _c :: _d :: _e :: _f :: _alpha :: _beta :: gamma :: _delta :: _eta :: _ =>
    some (IoTable.extension_transition_constraints gamma)
  | _ => none

/-- Tables reachable through the public lifecycle of io_table.rs:
created by `new`, populated by `set_matrix`, grown by `pad`. -/
inductive IoTable.Reachable {F : Type} [Zero F] : IoTable F → Prop
  | new : IoTable.Reachable (IoTable.new F)
  | set_matrix (t : IoTable F) (m : List F) :
      IoTable.Reachable t → IoTable.Reachable (t.set_matrix m)
  | pad (t : IoTable F) (n : Nat) :
      IoTable.Reachable t → IoTable.Reachable (t.pad n)

/-- src/src/trace.rs lines 62-69: public trace metadata. Bytes are modelled
as Fin 256. -/
structure TraceInfo where
  num_base_columns : Nat
  num_extension_columns : Nat
  trace_len : Nat
  meta : List (Fin 256)

/-- trace.rs line 74. -/
def TraceInfo.MIN_TRACE_LENGTH : Nat := 2048

/-- trace.rs line 76. -/
def TraceInfo.MAX_TRACE_WIDTH : Nat := 255

/-- trace.rs line 78. -/
def TraceInfo.MAX_META_BYTES : Nat := 65535

/-- trace.rs lines 80-98: the four asserts run in source order; a failed
assert aborts, modelled as none. -/
def TraceInfo.new (num_base_columns num_extension_columns trace_len : Nat)
    (meta : Option (List (Fin 256))) : Option TraceInfo :=
  let num_total_cols := num_base_columns + num_extension_columns
  let meta := meta.getD []
  if ¬ num_base_columns > 0 then none
  else if ¬ num_total_cols ≤ TraceInfo.MAX_TRACE_WIDTH then none
  else if ¬ meta.length ≤ TraceInfo.MAX_META_BYTES then none
  else if ¬ trace_len ≥ TraceInfo.MIN_TRACE_LENGTH then none
  else some { num_base_columns := num_base_columns,
              num_extension_columns := num_extension_columns,
              trace_len := trace_len,
              meta := meta }

/-- src/src/matrix.rs line 26: a Matrix is an array of columns, each a vector
of field elements. -/
abbrev Matrix (F : Type) : Type := List (List F)

/-- matrix.rs lines 67-77: an empty column list reports zero rows; otherwise
every column is asserted to have the length of column 0 (abort modelled as
none) and that common length is returned. -/
def Matrix.num_rows {F : Type} (m : Matrix F) : Option Nat :=
  match m with
  | [] => some 0
  | c0 :: _ =>
    if ∀ col ∈ m, col.length = c0.length then some c0.length else none

/-- matrix.rs lines 93-95. -/
def Matrix.num_cols {F : Type} (m : Matrix F) : Nat :=
  m.length

/-- matrix.rs lines 296-300: the row buffer entry for each column is
overwritten with that column at `row_idx`; the index is in range whenever the
caller has established `row_idx < num_rows`, so `getD` only ever takes the
stored entry. -/
def Matrix.read_row {F : Type} [Zero F] (m : Matrix F) (row_idx : Nat) : List F :=
  m.map (fun column => column.getD row_idx 0)

/-- matrix.rs lines 288-294: in-range rows are collected across the columns
(`col[row]`, in range because `row < num_rows`), out-of-range requests give
None; the outer Option carries the num_rows assertion. -/
def Matrix.get_row {F : Type} [Zero F] (m : Matrix F) (row : Nat) :
    Option (Option (List F)) :=
  match Matrix.num_rows m with
  | none => none
  | some n =>
    if row < n then some (some (m.map (fun col => col.getD row 0)))
    else some none

/-- matrix.rs lines 254-280, sequential build: one digest per row. In the
non-parallel path the chunk size is the number of rows, so `chunks_mut`
panics (none) when the matrix has zero rows; otherwise there is exactly one
chunk and digest `i` hashes row `i` read across all columns in column
order. -/
def Matrix.hash_rows {F D : Type} [Zero F] (hashElements : List F → D) (d0 : D)
    (m : Matrix F) : Option (List D) :=
  match Matrix.num_rows m with
  | none => none
  | some num_rows =>
    let row_hashes : List D := List.replicate num_rows d0
    let chunk_size := row_hashes.length
    if chunk_size = 0 then none
    else some ((List.range num_rows).map (fun i => hashElements (Matrix.read_row m i)))

/-- matrix.rs lines 322-350, sequential build: the accumulator starts as a
zero column of length num_rows; when there is at least one column the chunk
size is the accumulator length, so `chunks_mut` panics (none) at zero rows;
otherwise the single chunk accumulates every column element-wise. -/
def Matrix.sum_columns_cpu {F : Type} [Add F] [Zero F] (m : Matrix F) :
    Option (Matrix F) :=
  match Matrix.num_rows m with
  | none => none
  | some n =>
    let accumulator : List F := List.replicate n 0
    if Matrix.num_cols m ≠ 0 then
      let chunk_size := accumulator.length
      if chunk_size = 0 then none
      else
        some [m.foldl
          (fun chunk column =>
            (List.range chunk_size).map (fun i => chunk.getD i 0 + column.getD i 0))
          accumulator]
    else some [accumulator]

/-- matrix.rs lines 385-394: without the gpu feature, `sum_columns` is the
cpu path. -/
def Matrix.sum_columns {F : Type} [Add F] [Zero F] (m : Matrix F) :
    Option (Matrix F) :=
  Matrix.sum_columns_cpu m

/-- Vec::resize to length `n`, filling with zero: keeps the first `n`
entries and pads with zeros when shorter. -/
def resize {F : Type} [Zero F] (v : List F) (n : Nat) : List F :=
  v.take n ++ List.replicate (n - v.length) 0

/-- Modelled from the spec: the forward transform kernel
(arkworks `Radix2EvaluationDomain::fft_in_place`) is an external primitive;
per the §6 transform backend contract it resizes the column to the domain
size with zeros and evaluates the coefficient column over the size-`n` domain
generated by `ω`. -/
def fft_in_place {F : Type} [CommRing F] (ω : F) (n : Nat) (v : List F) : List F :=
  let padded := resize v n
  (List.range n).map (fun j => ∑ i ∈ Finset.range n, padded.getD i 0 * ω ^ (i * j))

/-- Modelled from the spec: the inverse transform kernel
(arkworks `Radix2EvaluationDomain::ifft_in_place`) is an external primitive;
per the §6 transform backend contract it resizes to the domain size and
computes the unique interpolating coefficients, which over the domain
generated by `ω` is the inverse transform scaled by `n⁻¹`. -/
def ifft_in_place {F : Type} [Field F] (ω : F) (n : Nat) (v : List F) : List F :=
  let padded := resize v n
  (List.range n).map (fun i => (n : F)⁻¹ * ∑ j ∈ Finset.range n, padded.getD j 0 * ω⁻¹ ^ (i * j))

/-- matrix.rs lines 165-190: the forward transform is applied to every
column independently; the evaluation domain is represented by its generator
`ω` and size `n`. -/
def Matrix.into_evaluations_cpu {F : Type} [CommRing F] (ω : F) (n : Nat)
    (m : Matrix F) : Matrix F :=
  m.map (fft_in_place ω n)

/-- matrix.rs lines 118-139: the inverse transform is applied to every
column independently. -/
def Matrix.into_polynomials_cpu {F : Type} [Field F] (ω : F) (n : Nat)
    (m : Matrix F) : Matrix F :=
  m.map (ifft_in_place ω n)

/-- matrix.rs lines 211-223: without the gpu feature, `into_evaluations` is
the cpu path. -/
def Matrix.into_evaluations {F : Type} [CommRing F] (ω : F) (n : Nat)
    (m : Matrix F) : Matrix F :=
  Matrix.into_evaluations_cpu ω n m

/-- matrix.rs lines 142-154: without the gpu feature, `into_polynomials` is
the cpu path. -/
def Matrix.into_polynomials {F : Type} [Field F] (ω : F) (n : Nat)
    (m : Matrix F) : Matrix F :=
  Matrix.into_polynomials_cpu ω n m

/-- The transposition of indices `i` and `j`. -/
def swapIdx (i j k : Nat) : Nat :=
  if k = i then j else if k = j then i else k

/-- A matrix with rows `i` and `j` exchanged: every column has its entries
`i` and `j` exchanged. This is input-side apparatus for the row-permutation
property, not source code. -/
def Matrix.swap_rows {F : Type} [Zero F] (i j : Nat) (m : Matrix F) : Matrix F :=
  m.map (fun col => (List.range col.length).map (fun k => col.getD (swapIdx i j k) 0))

instance fact_prime_17 : Fact (Nat.Prime 17) := ⟨by norm_num⟩

/-- Closed form of the padding loop: `pad` appends exactly
`n - height` zero rows and bumps the padding counter by the same amount. -/
theorem IoTable.pad_eq {F : Type} [Zero F] (t : IoTable F) (n : Nat) :
    t.pad n = { num_padded_rows := t.num_padded_rows + (n - t.matrix.length),
                matrix := t.matrix ++ List.replicate (n - t.matrix.length) 0 } := by
  rw [IoTable.pad]
  split
  · next h =>
    rw [IoTable.pad_eq]
    have hlen : n - t.matrix.length = (n - (t.matrix.length + 1)) + 1 := by omega
    simp only [List.length_append, List.length_singleton, IoTable.mk.injEq, hlen,
      List.replicate_succ]
    constructor
    · omega
    · simp [List.append_assoc]
  · next h =>
    have hz : n - t.matrix.length = 0 := by omega
    simp [hz]
termination_by n - t.matrix.length
decreasing_by
  simp only [List.length_append, List.length_singleton]
  omega

/-- Claim C4: pad appends zero-valued base rows until the height reaches at
least `n`, one padding-counter increment per appended row, preserving the
stored rows and the real length; once the target is reached it is a no-op,
and padding twice with the same target equals padding once. -/
theorem io_pad_spec {F : Type} [Zero F] (t : IoTable F) (n : Nat) :
    (t.pad n).matrix = t.matrix ++ List.replicate (n - t.height) 0 ∧
    (t.pad n).height = max t.height n ∧
    (t.pad n).num_padded_rows = t.num_padded_rows + (n - t.height) ∧
    (t.pad n).len = t.len ∧
    (n ≤ t.height → t.pad n = t) ∧
    (t.pad n).pad n = t.pad n := by
  have e := IoTable.pad_eq t n
  refine ⟨?_, ?_, ?_, ?_, ?_, ?_⟩
  · rw [e]; rfl
  · rw [e]; simp [IoTable.height, List.length_append]; omega
  · rw [e]; rfl
  · rw [e]; simp [IoTable.len, List.length_append]; omega
  · intro hle
    have hz : n - t.matrix.length = 0 := by
      simp [IoTable.height] at hle; omega
    rw [e]; simp [hz]
  · rw [e, IoTable.pad_eq]
    have hz : n - (t.matrix.length + (n - t.matrix.length)) = 0 := by omega
    simp [List.length_append, List.length_replicate, hz]

/-- Witness for claim C4 at a concrete table. -/
theorem io_pad_spec_witness :
    ((IoTable.mk 0 [1, 2] : IoTable Int).pad 2).pad 2
        = (IoTable.mk 0 [1, 2] : IoTable Int).pad 2 ∧
      (IoTable.mk 0 [1, 2] : IoTable Int).pad 2 = IoTable.mk 0 [1, 2] :=
  ⟨(io_pad_spec (IoTable.mk 0 [1, 2] : IoTable Int) 2).2.2.2.2.2,
   (io_pad_spec (IoTable.mk 0 [1, 2] : IoTable Int) 2).2.2.2.2.1 (by decide)⟩

/-- On every reachable table the padding counter never exceeds the stored
height, so the usize subtraction inside `len` cannot underflow. -/
theorem IoTable.reachable_padding_le {F : Type} [Zero F] (t : IoTable F)
    (h : t.Reachable) : t.num_padded_rows ≤ t.matrix.length := by
  induction h with
  | new => simp [IoTable.new]
  | set_matrix u m _ _ => simp [IoTable.set_matrix]
  | pad u n _ ih =>
    rw [IoTable.pad_eq]
    simp [List.length_append]
    omega

/-- Claim C5: every table reachable by new, set_matrix and pad satisfies
height = len + num_padded_rows; set_matrix resets the padding counter to
zero, so immediately afterwards len and height both equal the number of
installed rows. -/
theorem io_table_height_invariant {F : Type} [Zero F] (t : IoTable F)
    (h : t.Reachable) :
    t.height = t.len + t.num_padded_rows ∧
    ∀ (u : IoTable F) (m : List F),
      (u.set_matrix m).num_padded_rows = 0 ∧
      (u.set_matrix m).len = m.length ∧
      (u.set_matrix m).height = m.length := by
  constructor
  · have hle := IoTable.reachable_padding_le t h
    simp [IoTable.height, IoTable.len]
    omega
  · intro u m
    simp [IoTable.set_matrix, IoTable.len, IoTable.height]

/-- Witness for claim C5 at a concrete reachable table. -/
theorem io_table_height_invariant_witness :
    (((IoTable.new Int).set_matrix [1, 2]).pad 4).height
      = (((IoTable.new Int).set_matrix [1, 2]).pad 4).len
        + (((IoTable.new Int).set_matrix [1, 2]).pad 4).num_padded_rows :=
  (io_table_height_invariant (((IoTable.new Int).set_matrix [1, 2]).pad 4)
    (IoTable.Reachable.pad _ 4
      (IoTable.Reachable.set_matrix _ [1, 2] IoTable.Reachable.new))).1

/-- Claim C6: TraceInfo construction aborts exactly when the base column
count is zero, the total column count exceeds 255, the metadata exceeds
65535 bytes, or the trace is shorter than 2048 rows; otherwise it stores the
given values, meta defaulting to the empty byte string. -/
theorem traceInfo_new_spec (b e l : Nat) (meta : Option (List (Fin 256))) :
    TraceInfo.new b e l meta =
      if b = 0 ∨ 255 < b + e ∨ 65535 < (meta.getD []).length ∨ l < 2048 then none
      else some (TraceInfo.mk b e l (meta.getD [])) := by
  simp only [TraceInfo.new, TraceInfo.MAX_TRACE_WIDTH, TraceInfo.MAX_META_BYTES,
    TraceInfo.MIN_TRACE_LENGTH]
  split_ifs <;> first | rfl | omega

/-- Claim C2: the terminal constraint of an IoTable padded by k rows is the
single polynomial evaluation - terminal * challenge ^ k; with no padding it
vanishes exactly when the evaluation equals the claimed terminal, and with
padding the terminal is pre-multiplied by challenge ^ k. -/
theorem io_terminal_constraints_spec {F : Type} [CommRing F] (t : IoTable F)
    (challenge terminal : F) (σ : Nat → F) :
    (t.extension_terminal_constraints challenge terminal).length = 1 ∧
    ((t.extension_terminal_constraints challenge terminal).headD
        Multivariate.zeroPoly).evaluate σ
      = σ IoTable.EVALUATION - terminal * challenge ^ t.num_padded_rows ∧
    (((t.extension_terminal_constraints challenge terminal).headD
        Multivariate.zeroPoly).evaluate σ = 0
      ↔ σ IoTable.EVALUATION = terminal * challenge ^ t.num_padded_rows) ∧
    (t.num_padded_rows = 0 →
      (((t.extension_terminal_constraints challenge terminal).headD
          Multivariate.zeroPoly).evaluate σ = 0
        ↔ σ IoTable.EVALUATION = terminal)) := by
  refine ⟨rfl, rfl, ?_, ?_⟩
  · show σ IoTable.EVALUATION - terminal * challenge ^ t.num_padded_rows = 0 ↔ _
    exact sub_eq_zero
  · intro h0
    show σ IoTable.EVALUATION - terminal * challenge ^ t.num_padded_rows = 0 ↔ _
    rw [h0, pow_zero, mul_one]
    exact sub_eq_zero

/-- Witness for claim C2 at a concrete table, challenge and terminal. -/
theorem io_terminal_constraints_spec_witness :
    ((IoTable.mk 0 [] : IoTable (ZMod 17)).extension_terminal_constraints
        2 5).length = 1 ∧
      ((((IoTable.mk 0 [] : IoTable (ZMod 17)).extension_terminal_constraints
          2 5).headD Multivariate.zeroPoly).evaluate
            (fun k => if k = 1 then 5 else 0) = 0
        ↔ (fun k => if k = 1 then (5 : ZMod 17) else 0) IoTable.EVALUATION = 5) :=
  ⟨(io_terminal_constraints_spec (IoTable.mk 0 [] : IoTable (ZMod 17)) 2 5
      (fun k => if k = 1 then 5 else 0)).1,
   (io_terminal_constraints_spec (IoTable.mk 0 [] : IoTable (ZMod 17)) 2 5
      (fun k => if k = 1 then 5 else 0)).2.2.2 rfl⟩

/-- Claim C1: the transition constraint of the output table (challenge
delta = challenges[9], here 1) evaluates to zero on the concrete row pair
value = 0, evaluation = 0, value_next = 1, evaluation_next = 0, although
evaluation_next differs from evaluation * delta + value_next there; the
source reads the current-row variables where the next-row variables were
intended, so the returned polynomial does not enforce the claimed
recurrence. -/
theorem output_transition_constraint_bug :
    ∃ p : Multivariate (ZMod 17),
      OutputTable.extension_transition_constraints
          ([0, 0, 0, 0, 0, 0, 0, 0, 0, 1, 0] : List (ZMod 17)) = some [p] ∧
      p.evaluate (fun k => if k = 2 then 1 else 0) = 0 ∧
      ¬ ((fun k => if k = 2 then (1 : ZMod 17) else 0) 3
          = (fun k => if k = 2 then (1 : ZMod 17) else 0) 1 * 1
            + (fun k => if k = 2 then (1 : ZMod 17) else 0) 2) := by
  refine ⟨_, rfl, ?_, by decide⟩
  show ((0 : ZMod 17) * 1 + 0 - 0) = 0
  decide

/-- Indexing a range-map with an in-range index picks the mapped value. -/
theorem getD_map_range {α : Type} (f : Nat → α) (n j : Nat) (d : α) (h : j < n) :
    ((List.range n).map f).getD j d = f j := by
  rw [List.getD_eq_getElem?_getD, List.getElem?_map, List.getElem?_range h]
  rfl

/-- Indexing a replicate always yields the replicated value when it matches
the default. -/
theorem getD_replicate {α : Type} (a : α) (n j : Nat) :
    (List.replicate n a).getD j a = a := by
  rcases Nat.lt_or_ge j n with h | h
  · rw [List.getD_eq_getElem?_getD, List.getElem?_replicate, if_pos h]; rfl
  · rw [List.getD_eq_getElem?_getD, List.getElem?_replicate, if_neg (by omega)]; rfl

/-- A non-empty matrix with uniform column length `n` passes the num_rows
assertion and reports `n`. -/
theorem num_rows_of_uniform {F : Type} (m : Matrix F) (n : Nat) (hm : m ≠ [])
    (hu : ∀ col ∈ m, col.length = n) : Matrix.num_rows m = some n := by
  match m with
  | [] => exact absurd rfl hm
  | c0 :: rest =>
    have h0 : c0.length = n := hu c0 (by simp)
    rw [Matrix.num_rows, if_pos]
    · rw [h0]
    · intro col hc
      rw [hu col hc, h0]

/-- Claim C8: on a non-empty matrix, num_rows returns the common column
length when all columns agree, and aborts whenever two columns have
different lengths. -/
theorem num_rows_spec {F : Type} (m : Matrix F) (hm : m ≠ []) :
    (∀ n, (∀ col ∈ m, col.length = n) → Matrix.num_rows m = some n) ∧
    ((∃ c1 ∈ m, ∃ c2 ∈ m, c1.length ≠ c2.length) → Matrix.num_rows m = none) := by
  constructor
  · intro n hu
    exact num_rows_of_uniform m n hm hu
  · rintro ⟨c1, hc1, c2, hc2, hne⟩
    match m with
    | c0 :: rest =>
      rw [Matrix.num_rows, if_neg]
      intro hall
      exact hne (by rw [hall c1 hc1, hall c2 hc2])

/-- Witness for claim C8: a uniform and a ragged concrete matrix. -/
theorem num_rows_spec_witness :
    Matrix.num_rows ([[1], [2]] : Matrix Int) = some 1 ∧
      Matrix.num_rows ([[1], []] : Matrix Int) = none :=
  ⟨(num_rows_spec ([[1], [2]] : Matrix Int) (by decide)).1 1 (by decide),
   (num_rows_spec ([[1], []] : Matrix Int) (by decide)).2
     ⟨[1], by decide, [], by decide, by decide⟩⟩

/-- Claim C10: once the columns have the common length reported by num_rows,
get_row returns the row collected across the columns in column order for an
in-range index and None for an out-of-range index, without panicking. -/
theorem get_row_spec {F : Type} [Zero F] (m : Matrix F) (n : Nat)
    (hn : Matrix.num_rows m = some n) (i : Nat) :
    Matrix.get_row m i =
      some (if i < n then some (m.map (fun col => col.getD i 0)) else none) := by
  unfold Matrix.get_row
  rw [hn]
  dsimp only
  split_ifs <;> rfl

/-- Witness for claim C10: an in-range and an out-of-range request on a
concrete matrix. -/
theorem get_row_spec_witness :
    Matrix.get_row ([[1, 2], [3, 4]] : Matrix Int) 1 = some (some [2, 4]) ∧
      Matrix.get_row ([[1, 2], [3, 4]] : Matrix Int) 2 = some none := by
  have h1 := get_row_spec ([[1, 2], [3, 4]] : Matrix Int) 2 (by decide) 1
  have h2 := get_row_spec ([[1, 2], [3, 4]] : Matrix Int) 2 (by decide) 2
  constructor
  · rw [h1]; decide
  · rw [h2]; decide

/-- Claim C7 counterexample: on the one-column matrix whose column is empty,
the sequential sum_columns panics (chunk size zero) instead of returning the
single empty column. -/
theorem sum_columns_zero_rows_counterexample :
    Matrix.sum_columns ([[]] : Matrix Int) = none ∧
      Matrix.sum_columns ([[]] : Matrix Int) ≠ some [[]] := by decide

/-- Reading every position of a list of length `n` back in order rebuilds
the list. -/
theorem map_range_getD_self {α : Type} (acc : List α) (n : Nat) (d : α)
    (h : acc.length = n) :
    (List.range n).map (fun i => acc.getD i d) = acc := by
  apply List.ext_getElem
  · simp [h]
  · intro i h1 h2
    have h3 : ((List.range n).map (fun i => acc.getD i d))[i] = acc.getD i d := by
      simp
    rw [h3, List.getD_eq_getElem?_getD, List.getElem?_eq_getElem h2]
    rfl

/-- The accumulation loop of sum_columns: folding the columns over an
accumulator of length `n` adds every column element-wise. -/
theorem sum_columns_foldl {F : Type} [AddCommMonoid F] (cols : List (List F))
    (n : Nat) (acc : List F) (hacc : acc.length = n) :
    cols.foldl
        (fun chunk column =>
          (List.range n).map (fun i => chunk.getD i 0 + column.getD i 0)) acc
      = (List.range n).map
          (fun i => acc.getD i 0 + (cols.map (fun col => col.getD i 0)).sum) := by
  induction cols generalizing acc with
  | nil =>
    simp only [List.foldl_nil, List.map_nil, List.sum_nil, add_zero]
    exact (map_range_getD_self acc n 0 hacc).symm
  | cons c cols ih =>
    rw [List.foldl_cons, ih _ (by simp)]
    apply List.map_congr_left
    intro i hi
    have hi2 : i < n := List.mem_range.mp hi
    rw [getD_map_range _ n i 0 hi2]
    simp [add_assoc]

/-- Claim C7 amended: on a matrix with k columns each of length n, the
sequential sum_columns returns the single column of element-wise sums when
n is positive, and the single empty all-zero column when k = 0 (there
num_rows is 0); when k is positive and n = 0 it panics on a zero chunk
size. -/
theorem sum_columns_spec {F : Type} [AddCommMonoid F] (m : Matrix F) (n : Nat)
    (hu : ∀ col ∈ m, col.length = n) :
    (m ≠ [] → 0 < n →
      Matrix.sum_columns m =
        some [(List.range n).map
          (fun i => (m.map (fun col => col.getD i 0)).sum)]) ∧
    Matrix.sum_columns ([] : Matrix F) = some [[]] ∧
    (m ≠ [] → n = 0 → Matrix.sum_columns m = none) := by
  refine ⟨?_, rfl, ?_⟩
  · intro hm hn
    unfold Matrix.sum_columns Matrix.sum_columns_cpu
    rw [num_rows_of_uniform m n hm hu]
    have hcols : Matrix.num_cols m ≠ 0 := by
      simpa [Matrix.num_cols, List.length_eq_zero] using hm
    dsimp only
    rw [if_pos hcols]
    simp only [List.length_replicate]
    rw [if_neg (by omega)]
    rw [sum_columns_foldl m n (List.replicate n 0) (by simp)]
    congr 1
    congr 1
    apply List.map_congr_left
    intro i hi
    rw [getD_replicate, zero_add]
  · intro hm hn
    unfold Matrix.sum_columns Matrix.sum_columns_cpu
    rw [num_rows_of_uniform m n hm hu]
    have hcols : Matrix.num_cols m ≠ 0 := by
      simpa [Matrix.num_cols, List.length_eq_zero] using hm
    dsimp only
    rw [if_pos hcols]
    simp only [List.length_replicate]
    rw [if_pos (by omega)]

/-- Witness for claim C7 on a concrete two-column matrix. -/
theorem sum_columns_spec_witness :
    Matrix.sum_columns ([[1, 2], [3, 4]] : Matrix Int) = some [[4, 6]] := by
  have h := (sum_columns_spec ([[1, 2], [3, 4]] : Matrix Int) 2 (by decide)).1
    (by decide) (by decide)
  rw [h]
  decide

/-- Exchanging two rows preserves the column geometry. -/
theorem swap_rows_num_rows {F : Type} [Zero F] (i j : Nat) (m : Matrix F)
    (n : Nat) (hm : m ≠ []) (hu : ∀ col ∈ m, col.length = n) :
    Matrix.num_rows (Matrix.swap_rows i j m) = some n := by
  apply num_rows_of_uniform
  · simpa [Matrix.swap_rows, List.map_eq_nil_iff] using hm
  · intro col hc
    simp only [Matrix.swap_rows, List.mem_map] at hc
    obtain ⟨c, hcm, rfl⟩ := hc
    simp [hu c hcm]

/-- The transposition stays inside the row range. -/
theorem swapIdx_lt (i j k n : Nat) (hi : i < n) (hj : j < n) (hk : k < n) :
    swapIdx i j k < n := by
  unfold swapIdx
  split_ifs <;> omega

/-- Reading row `k` of the row-exchanged matrix reads row `swapIdx i j k` of
the original. -/
theorem read_row_swap {F : Type} [Zero F] (i j : Nat) (m : Matrix F) (n : Nat)
    (hu : ∀ col ∈ m, col.length = n) (k : Nat) (hk : k < n) :
    Matrix.read_row (Matrix.swap_rows i j m) k
      = Matrix.read_row m (swapIdx i j k) := by
  unfold Matrix.read_row Matrix.swap_rows
  rw [List.map_map]
  apply List.map_congr_left
  intro col hcol
  dsimp
  rw [hu col hcol, getD_map_range _ n k 0 hk]

/-- The sequential hash_rows on a matrix with a positive row count: one
digest per row, hashing the row read across all columns. -/
theorem hash_rows_eq {F D : Type} [Zero F] (hashElements : List F → D) (d0 : D)
    (m : Matrix F) (n : Nat) (hn : Matrix.num_rows m = some n) (hpos : 0 < n) :
    Matrix.hash_rows hashElements d0 m
      = some ((List.range n).map (fun r => hashElements (Matrix.read_row m r))) := by
  unfold Matrix.hash_rows
  rw [hn]
  dsimp only
  simp only [List.length_replicate]
  rw [if_neg (by omega)]

/-- Claim C9: hash_rows is deterministic, digest r hashes row r read across
the columns in column order, and on the matrix with rows i and j exchanged
the digest list is the original one with entries i and j exchanged: digest
r of the exchanged matrix is original digest swapIdx i j r, where the
transposition fixes every index other than i and j and crosses i and j. -/
theorem hash_rows_swap_spec {F D : Type} [Zero F] (hashElements : List F → D)
    (d0 : D) (m : Matrix F) (n i j : Nat) (hm : m ≠ [])
    (hu : ∀ col ∈ m, col.length = n) (hi : i < n) (hj : j < n) :
    (∀ m2 : Matrix F, m2 = m →
      Matrix.hash_rows hashElements d0 m2 = Matrix.hash_rows hashElements d0 m) ∧
    Matrix.hash_rows hashElements d0 m
      = some ((List.range n).map (fun r => hashElements (Matrix.read_row m r))) ∧
    Matrix.hash_rows hashElements d0 (Matrix.swap_rows i j m)
      = some ((List.range n).map
          (fun r => hashElements (Matrix.read_row m (swapIdx i j r)))) ∧
    (∀ k, k < n → k ≠ i → k ≠ j → swapIdx i j k = k) ∧
    swapIdx i j i = j ∧ swapIdx i j j = i := by
  have hpos : 0 < n := by omega
  have hn := num_rows_of_uniform m n hm hu
  have hn2 := swap_rows_num_rows i j m n hm hu
  refine ⟨fun m2 he => by rw [he], hash_rows_eq hashElements d0 m n hn hpos, ?_, ?_, ?_, ?_⟩
  · rw [hash_rows_eq hashElements d0 _ n hn2 hpos]
    congr 1
    apply List.map_congr_left
    intro r hr
    rw [read_row_swap i j m n hu r (List.mem_range.mp hr)]
  · intro k _ hki hkj
    unfold swapIdx
    rw [if_neg hki, if_neg hkj]
  · unfold swapIdx
    split_ifs <;> omega
  · unfold swapIdx
    split_ifs <;> omega

/-- Witness for claim C9 on a concrete two-row matrix with a concrete
digest function. -/
theorem hash_rows_swap_spec_witness :
    Matrix.hash_rows (fun row => row.sum) (0 : Int) [[1, 2], [10, 20]]
        = some [11, 22] ∧
      Matrix.hash_rows (fun row => row.sum) (0 : Int)
          (Matrix.swap_rows 0 1 [[1, 2], [10, 20]])
        = some [22, 11] := by
  have h := hash_rows_swap_spec (fun row => row.sum) (0 : Int)
    [[1, 2], [10, 20]] 2 0 1 (by decide) (by decide) (by decide) (by decide)
  refine ⟨?_, ?_⟩
  · rw [h.2.1]; decide
  · rw [h.2.2.1]; decide

/-- Vec::resize always produces the requested length. -/
theorem length_resize {F : Type} [Zero F] (v : List F) (n : Nat) :
    (resize v n).length = n := by
  simp only [resize, List.length_append, List.length_take, List.length_replicate]
  omega

/-- Resizing a list of exactly the requested length is the identity. -/
theorem resize_of_length_eq {F : Type} [Zero F] (v : List F) (n : Nat)
    (h : v.length = n) : resize v n = v := by
  subst h
  simp [resize]

/-- Resizing a list no longer than the request appends the zero padding. -/
theorem resize_append_eq {F : Type} [Zero F] (v : List F) (n : Nat)
    (h : v.length ≤ n) : resize v n = v ++ List.replicate (n - v.length) 0 := by
  simp [resize, List.take_of_length_le h]

/-- The forward transform evaluated at an in-range index. -/
theorem getD_fft {F : Type} [CommRing F] (ω : F) (n : Nat) (v : List F)
    (j : Nat) (hj : j < n) :
    (fft_in_place ω n v).getD j 0
      = ∑ i ∈ Finset.range n, (resize v n).getD i 0 * ω ^ (i * j) := by
  simp only [fft_in_place]
  exact getD_map_range _ n j 0 hj

/-- The inverse transform evaluated at an in-range index. -/
theorem getD_ifft {F : Type} [Field F] (ω : F) (n : Nat) (v : List F)
    (i : Nat) (hi : i < n) :
    (ifft_in_place ω n v).getD i 0
      = (n : F)⁻¹ * ∑ j ∈ Finset.range n, (resize v n).getD j 0 * ω⁻¹ ^ (i * j) := by
  simp only [ifft_in_place]
  exact getD_map_range _ n i 0 hi

/-- The forward transform only depends on the column through its resize. -/
theorem fft_resize {F : Type} [CommRing F] (ω : F) (n : Nat) (v : List F) :
    fft_in_place ω n (resize v n) = fft_in_place ω n v := by
  simp only [fft_in_place, resize_of_length_eq (resize v n) n (length_resize v n)]

/-- Orthogonality of the powers of a primitive root: summing the powers of
`ω ^ l * (ω ^ i)⁻¹` over the domain gives `n` on the diagonal and `0` off
it. -/
theorem root_geom_sum {F : Type} [Field F] (ω : F) (n : Nat) (h1 : ω ^ n = 1)
    (hp : ∀ d, d < n → 0 < d → ω ^ d ≠ 1) (hn0 : n ≠ 0) (l i : Nat)
    (hl : l < n) (hi : i < n) :
    ∑ j ∈ Finset.range n, (ω ^ l * (ω ^ i)⁻¹) ^ j
      = if l = i then (n : F) else 0 := by
  have hω0 : ω ≠ 0 := by
    intro h
    rw [h, zero_pow hn0] at h1
    exact zero_ne_one h1
  by_cases he : l = i
  · subst he
    rw [mul_inv_cancel₀ (pow_ne_zero l hω0), if_pos rfl]
    simp
  · have key : ∀ a b : Nat, a ≤ b → b < n → ω ^ a = ω ^ b → a = b := by
      intro a b hab hb he2
      have h2 : ω ^ a * ω ^ (b - a) = ω ^ a * 1 := by
        rw [mul_one, ← pow_add]
        have hba : a + (b - a) = b := by omega
        rw [hba, ← he2]
      have h3 : ω ^ (b - a) = 1 := mul_left_cancel₀ (pow_ne_zero a hω0) h2
      by_contra hne
      exact hp (b - a) (by omega) (by omega) h3
    have hζ1 : ω ^ l * (ω ^ i)⁻¹ ≠ 1 := by
      intro hone
      rw [mul_inv_eq_one₀ (pow_ne_zero i hω0)] at hone
      have he2 := hone
      rcases Nat.lt_or_ge i l with hlt | hle
      · exact he ((key i l (Nat.le_of_lt hlt) hl he2.symm).symm)
      · exact he (key l i hle hi he2)
    have hζn : (ω ^ l * (ω ^ i)⁻¹) ^ n = 1 := by
      have ha : (ω ^ l) ^ n = 1 := by
        rw [← pow_mul, mul_comm, pow_mul, h1, one_pow]
      have hb : ((ω ^ i)⁻¹) ^ n = 1 := by
        rw [inv_pow, ← pow_mul, mul_comm, pow_mul, h1, one_pow, inv_one]
      rw [mul_pow, ha, hb, mul_one]
    rw [geom_sum_eq hζ1 n, hζn, sub_self, zero_div, if_neg he]

/-- Inversion of the transform at one index: the inverse transform of the
forward transform of a full-length column reproduces the column entry. -/
theorem ifft_fft_getD {F : Type} [Field F] (ω : F) (n : Nat) (h1 : ω ^ n = 1)
    (hp : ∀ d, d < n → 0 < d → ω ^ d ≠ 1) (hninv : (n : F) ≠ 0)
    (v : List F) (hv : v.length = n) (k : Nat) (hk : k < n) :
    (ifft_in_place ω n (fft_in_place ω n v)).getD k 0 = v.getD k 0 := by
  have hn0 : n ≠ 0 := by
    intro h
    rw [h] at hninv
    exact hninv Nat.cast_zero
  have hw : (fft_in_place ω n v).length = n := by
    simp [fft_in_place]
  rw [getD_ifft ω n _ k hk, resize_of_length_eq _ n hw]
  have hstep : ∀ j ∈ Finset.range n,
      (fft_in_place ω n v).getD j 0 * ω⁻¹ ^ (k * j)
        = ∑ l ∈ Finset.range n, v.getD l 0 * (ω ^ l * (ω ^ k)⁻¹) ^ j := by
    intro j hj
    rw [getD_fft ω n v j (Finset.mem_range.mp hj), Finset.sum_mul]
    apply Finset.sum_congr rfl
    intro l _
    rw [resize_of_length_eq v n hv, mul_assoc]
    congr 1
    rw [pow_mul, pow_mul, inv_pow, ← mul_pow]
  rw [Finset.sum_congr rfl hstep, Finset.sum_comm]
  have hout : ∀ l ∈ Finset.range n,
      ∑ j ∈ Finset.range n, v.getD l 0 * (ω ^ l * (ω ^ k)⁻¹) ^ j
        = v.getD l 0 * (if l = k then (n : F) else 0) := by
    intro l hl
    rw [← Finset.mul_sum,
      root_geom_sum ω n h1 hp hn0 l k (Finset.mem_range.mp hl) hk]
  rw [Finset.sum_congr rfl hout]
  simp only [mul_ite, mul_zero]
  rw [Finset.sum_ite_eq' (Finset.range n) k (fun l => v.getD l 0 * (n : F)),
    if_pos (Finset.mem_range.mpr hk)]
  rw [mul_comm (v.getD k 0) ((n : F)), ← mul_assoc, inv_mul_cancel₀ hninv, one_mul]

/-- Inversion of the transform as lists: on a full-length column the inverse
transform undoes the forward transform. -/
theorem ifft_fft_of_length {F : Type} [Field F] (ω : F) (n : Nat)
    (h1 : ω ^ n = 1) (hp : ∀ d, d < n → 0 < d → ω ^ d ≠ 1)
    (hninv : (n : F) ≠ 0) (v : List F) (hv : v.length = n) :
    ifft_in_place ω n (fft_in_place ω n v) = v := by
  apply List.ext_getElem
  · simp only [ifft_in_place, List.length_map, List.length_range]
    exact hv.symm
  · intro k h1k h2k
    have hk : k < n := by
      simpa [ifft_in_place] using h1k
    have := ifft_fft_getD ω n h1 hp hninv v hv k hk
    rw [List.getD_eq_getElem?_getD, List.getElem?_eq_getElem h1k] at this
    rw [List.getD_eq_getElem?_getD, List.getElem?_eq_getElem h2k] at this
    exact this

/-- Claim C3: interpolating the forward-transformed matrix over the same
power-of-two domain reproduces every column at its first `len` positions,
followed by the zero padding added before the forward transform. -/
theorem into_evaluations_into_polynomials_roundtrip {F : Type} [Field F]
    (ω : F) (k n len : Nat) (m : Matrix F) (hn : n = 2 ^ k)
    (hu : ∀ col ∈ m, col.length = len) (hle : len ≤ n) (h1 : ω ^ n = 1)
    (hp : ∀ d, d < n → 0 < d → ω ^ d ≠ 1) (hninv : (n : F) ≠ 0) :
    Matrix.into_polynomials ω n (Matrix.into_evaluations ω n m)
      = m.map (fun col => col ++ List.replicate (n - len) 0) := by
  unfold Matrix.into_polynomials Matrix.into_polynomials_cpu
    Matrix.into_evaluations Matrix.into_evaluations_cpu
  rw [List.map_map]
  apply List.map_congr_left
  intro col hcol
  have hc : col.length = len := hu col hcol
  have hclen : col.length ≤ n := by omega
  calc (ifft_in_place ω n ∘ fft_in_place ω n) col
      = ifft_in_place ω n (fft_in_place ω n (resize col n)) := by
        simp only [Function.comp_apply, fft_resize]
    _ = resize col n :=
        ifft_fft_of_length ω n h1 hp hninv _ (length_resize col n)
    _ = col ++ List.replicate (n - len) 0 := by
        rw [resize_append_eq col n hclen, hc]

/-- Witness for claim C3 over the field with 17 elements, domain size 4
generated by the primitive fourth root 4, on a one-column matrix of
length 2. -/
theorem into_evaluations_into_polynomials_roundtrip_witness :
    Matrix.into_polynomials (4 : ZMod 17) 4
        (Matrix.into_evaluations (4 : ZMod 17) 4 [[1, 2]])
      = ([[1, 2]] : Matrix (ZMod 17)).map
          (fun col => col ++ List.replicate (4 - 2) 0) :=
  into_evaluations_into_polynomials_roundtrip (4 : ZMod 17) 2 4 2 [[1, 2]]
    (by decide) (by decide) (by decide) (by decide) (by decide) (by decide)

end MiniStark
